import Mathlib

/-!
# zimrecreate: link patching, entry classification, metadata recreation and
# the parser of the metadata override option

A shallow embedding of `src/zimrecreate.cpp`.

* `std::string` is a `List Char` (one `Char` per byte of the string).
* `std::string::npos` is `none`: the `find` functions return `Option Nat`.
* C++ exceptions are values of `Exn`; a function that can throw returns
  `Except Exn _`.
* The calls made on the `zim::writer::Creator` are recorded, in order, as a
  list of `Op`; a loop that throws keeps the calls made before the throw.
* `create` is embedded in its two loops over the source archive: the metadata
  recreation (`createMetadata`) and the entry loop (`createEntries`). The
  configuration of the creator and the main path are not embedded.
* The source archive is an `Archive`: its metadata, its illustration and its
  entries; a redirect entry names its target by the index of the target among
  the entries, as `zim::Entry` does.
* `tools.h` is not among the sources: `replaceStringInPlace`, `ItemProvider`
  and `CopyItem` follow the spec, and `guess_is_front_article` is a parameter.
-/

namespace ZimRecreate

/-! ## Strings -/

/-- A `std::string`. -/
abbrev Str := List Char

/-- The single quote character. -/
def squote : Char := Char.ofNat 39

/-- The double quote character. -/
def dquote : Char := Char.ofNat 34

/-- The opening brace. -/
def lbrace : Char := Char.ofNat 123

/-- The closing brace. -/
def rbrace : Char := Char.ofNat 125

/-- The C++ exceptions that the program can raise. -/
inductive Exn where
  | out_of_range
  | invalid_argument (msg : Str)
  | runtime_error (msg : Str)
  | entry_not_found
  deriving DecidableEq, Repr

/-- Scan for `std::string::find(const std::string&)`: the index of the first
position of `s` (counted from `i`) at which `pat` occurs. -/
def findStrAux (pat : Str) : Str → Nat → Option Nat
  | [], i => if pat.isPrefixOf [] then some i else none
  | c :: cs, i => if pat.isPrefixOf (c :: cs) then some i else findStrAux pat cs (i + 1)

/-- The call `s.find(pat)` of `std::string`; `none` is `npos`. -/
def findStr (s pat : Str) : Option Nat := findStrAux pat s 0

/-- Scan for `std::string::find(char, pos)`. -/
def findCharAux (c : Char) : Str → Nat → Option Nat
  | [], _ => none
  | x :: xs, i => if x = c then some i else findCharAux c xs (i + 1)

/-- The call `s.find(c, pos)` of `std::string`; `none` is `npos`. -/
def findChar (s : Str) (c : Char) (pos : Nat) : Option Nat :=
  findCharAux c (s.drop pos) pos

/-- The call `s.substr(pos, n)` of `std::string` (`n = none` is `npos`):
throws `std::out_of_range` when `pos` is beyond the end of `s`. -/
def substr (s : Str) (pos : Nat) (n : Option Nat) : Except Exn Str :=
  if pos > s.length then .error .out_of_range
  else match n with
    | none => .ok (s.drop pos)
    | some n => .ok ((s.drop pos).take n)

/-- Left-to-right scan of `replaceStringInPlace`: `skip` counts the characters
of the subject that belong to the occurrence just replaced and are still to
be passed over. -/
def replaceScan (search repl : Str) : Nat → Str → Str
  | _, [] => []
  | skip + 1, _ :: cs => replaceScan search repl skip cs
  | 0, c :: cs =>
      if search.isPrefixOf (c :: cs) then
        repl ++ replaceScan search repl (search.length - 1) cs
      else c :: replaceScan search repl 0 cs

/-- Modelled from the spec: `replaceStringInPlace` is declared in `tools.h`,
which is not among the sources. The spec says of it: a literal substring
replacement across the entire content; all occurrences are replaced (global,
not first-match), scanning left to right, non-overlapping. The search strings
of the program are never empty; an empty search string leaves the subject as
it is here. -/
def replaceStringInPlace (subject search repl : Str) : Str :=
  if search = [] then subject else replaceScan search repl 0 subject

/-! ## Items of the source archive and of the writer -/

/-- A `zim::Item` of the source archive. -/
structure Item where
  path : Str
  title : Str
  mimetype : Str
  data : Str
  deriving DecidableEq, Repr

/-- The keys of `zim::writer::Hints`. -/
inductive HintKeys where
  | FRONT_ARTICLE
  deriving DecidableEq, Repr

/-- The type `zim::writer::Hints`. -/
abbrev Hints := List (HintKeys × Nat)

/-- What the creator reads from a `zim::writer::Item`. -/
structure WriterItem where
  path : Str
  title : Str
  mimetype : Str
  content : Str
  hints : Hints
  deriving DecidableEq, Repr

/-- Modelled from the spec: `ItemProvider` is declared in `tools.h`, which is
not among the sources. The spec says of it: a pass-through reference to the
source item's bytes. -/
def ItemProvider (item : Item) : Str := item.data

/-- The method `PatchItem::getPath`. -/
def PatchItem.getPath (item : Item) : Except Exn Str :=
  let path := item.path
  if path.length > 2 ∧ path[1]? = some '/' then
    substr path 2 none
  else
    .ok path

/-- The two loops of `PatchItem::getContentProvider` over the content. -/
def patchLinks (content : Str) : Str :=
  [[squote], [dquote]].foldl (fun content pfx =>
    ['A', 'I', 'J', '-'].foldl (fun content ns =>
      let content := replaceStringInPlace content (pfx ++ "../../".toList ++ [ns] ++ "/".toList)
        (pfx ++ "../".toList)
      replaceStringInPlace content (pfx ++ "../".toList ++ [ns] ++ "/".toList) pfx)
      content)
    content

/-- One replacement pass seen from behind the quote character: the pattern
body `p` is replaced by `r` when the text begins with it. -/
def stepTail (p r : Str) (s : Str) : Str :=
  if p.isPrefixOf s then r ++ s.drop p.length else s

/-- The eight passes of one quote character, seen from behind the quote. -/
def stripTail (s : Str) : Str :=
  ['A', 'I', 'J', '-'].foldl (fun s ns =>
    stepTail ("../".toList ++ [ns] ++ "/".toList) []
      (stepTail ("../../".toList ++ [ns] ++ "/".toList) "../".toList s)) s

/-- The 16 passes of the link patcher in their order, each with its target
pattern and its replacement: for each quote character and each namespace
character, the depth-2 pass and then the depth-1 pass. -/
def passes : List (Str × Str) :=
  [squote, dquote].flatMap fun q =>
    ['A', 'I', 'J', '-'].flatMap fun n =>
      [(q :: "../../".toList ++ [n] ++ "/".toList, q :: "../".toList),
        (q :: "../".toList ++ [n] ++ "/".toList, [q])]

/-- The 16 target patterns of the link patcher, in the order of the passes. -/
def targetPatterns : List Str :=
  passes.map Prod.fst

/-- The target patterns of the passes that come after the pass of `pat`:
`targetPatterns` lists the patterns in the order of the passes. -/
def laterPatterns (pat : Str) : List Str :=
  targetPatterns.drop (targetPatterns.indexOf pat + 1)

/-- The method `PatchItem::getContentProvider`: the content that the provider
feeds to the creator. -/
def PatchItem.getContentProvider (item : Item) : Str :=
  let mimetype := item.mimetype
  if findStr mimetype "text/html".toList = none ∧ findStr mimetype "text/css".toList = none then
    ItemProvider item
  else
    let content := item.data
    patchLinks content

/-- The HTML fragment `<a href="target">`. -/
def hrefTag (target : Str) : Str :=
  "<a href=".toList ++ [dquote] ++ target ++ [dquote] ++ ">".toList

/-! ## The source archive -/

/-- What distinguishes a redirect entry from an entry that has an item. The
target of a redirect is an entry of the same archive, given by its index
among the `n` entries. -/
inductive EntryKind (n : Nat) where
  | redirect (target : Fin n)
  | item (mimetype data : Str)
  deriving DecidableEq, Repr

/-- A `zim::Entry` of an archive of `n` entries. -/
structure Entry (n : Nat) where
  path : Str
  title : Str
  kind : EntryKind n
  deriving DecidableEq, Repr

/-- The call `entry.isRedirect()`. -/
def Entry.isRedirect {n : Nat} (entry : Entry n) : Bool :=
  match entry.kind with
  | .redirect _ => true
  | .item _ _ => false

/-- The call `entry.getItem()`, which throws on a redirect entry. -/
def Entry.getItem {n : Nat} (entry : Entry n) : Except Exn Item :=
  match entry.kind with
  | .redirect _ => .error .entry_not_found
  | .item mimetype data => .ok ⟨entry.path, entry.title, mimetype, data⟩

/-- The part of a `zim::Archive` that `create` reads: the namespace scheme,
the metadata (keys in their native order, with their values), the content of
the illustration item when there is one, and the entries in the order of
`iterEfficient`. -/
structure Archive where
  hasNewNamespaceScheme : Bool
  metadata : List (Str × Str)
  illustrationItem : Option Str
  entryCount : Nat
  entryAt : Fin entryCount → Entry entryCount

/-- The call `origin.getMetadataKeys()`. -/
def Archive.getMetadataKeys (origin : Archive) : List Str :=
  origin.metadata.map Prod.fst

/-- The call `origin.getMetadata(key)`, which throws when the key is absent. -/
def Archive.getMetadata (origin : Archive) (key : Str) : Except Exn Str :=
  match origin.metadata.lookup key with
  | some value => .ok value
  | none => .error .entry_not_found

/-- A `zim::Blob`: a pointer with a size. The blob either points at bytes
that are alive, or at a buffer of `size` bytes that has been released, in
which case what a reader of the blob finds is not determined. -/
inductive Blob where
  | data (bytes : Str)
  | released (size : Nat)
  deriving DecidableEq, Repr

/-- The call `origin.getIllustrationItem().getData()`, which throws when the
archive has no illustration of 48 pixels. -/
def Archive.getIllustrationData (origin : Archive) : Except Exn Blob :=
  match origin.illustrationItem with
  | some data => .ok (.data data)
  | none => .error .entry_not_found

/-- The range `origin.iterEfficient()`. -/
def Archive.iterEfficient (origin : Archive) : List (Entry origin.entryCount) :=
  List.ofFn origin.entryAt

/-- The call `entry.getRedirectEntry()` on a redirect entry of `origin`. -/
def Archive.getRedirectEntry (origin : Archive) (entry : Entry origin.entryCount) :
    Except Exn (Entry origin.entryCount) :=
  match entry.kind with
  | .redirect target => .ok (origin.entryAt target)
  | .item _ _ => .error .entry_not_found

/-! ## The creator -/

/-- The calls that `create` makes on the `zim::writer::Creator` between
`startZimCreation` and `finishZimCreation`. The creator itself belongs to the
archive library and is not embedded: its calls are recorded, and what it does
with them is outside this development. -/
inductive Op where
  | addMetadata (name content mimetype : Str)
  | addIllustration (size : Nat) (content : Blob)
  | addRedirection (path title targetPath : Str) (hints : Hints)
  | addItem (item : WriterItem)
  deriving DecidableEq, Repr

/-- What a loop has done when it ends: the calls made on the creator, and the
exception that ended the loop, if one was thrown. -/
abbrev Trace := List Op × Option Exn

/-- A `for` loop whose body makes the calls it returns, or throws. -/
def forEachEmit {α : Type} (body : α → Except Exn (List Op)) : List α → Trace
  | [] => ([], none)
  | a :: rest =>
    match body a with
    | .error e => ([], some e)
    | .ok ops => (ops ++ (forEachEmit body rest).1, (forEachEmit body rest).2)

/-- Sequencing of two parts of `create`: the second part runs only when the
first did not throw. -/
def Trace.andThen (first second : Trace) : Trace :=
  match first.2 with
  | some e => (first.1, some e)
  | none => (first.1 ++ second.1, second.2)

/-! ## The map of metadata overrides -/

/-- The order `operator<` of `std::string`. -/
def strLt : Str → Str → Bool
  | [], [] => false
  | [], _ :: _ => true
  | _ :: _, [] => false
  | a :: as, b :: bs =>
    if a.toNat < b.toNat then true
    else if b.toNat < a.toNat then false
    else strLt as bs

/-- A `std::map<std::string, std::string>`: its pairs in the order of
iteration, which is the increasing order of the keys. -/
abbrev StrMap := List (Str × Str)

/-- The call `m.find(key)`; `none` is `m.end()`. -/
def StrMap.find : StrMap → Str → Option Str
  | [], _ => none
  | (k, v) :: m, key => if k = key then some v else StrMap.find m key

/-- The assignment `m[key] = value`. -/
def StrMap.assign : StrMap → Str → Str → StrMap
  | [], key, value => [(key, value)]
  | (k, v) :: m, key, value =>
    if strLt key k then (key, value) :: (k, v) :: m
    else if strLt k key then (k, v) :: StrMap.assign m key value
    else (k, value) :: m

/-- The read `m[key]`, which yields the empty string for an absent key. -/
def StrMap.get (m : StrMap) (key : Str) : Str :=
  (m.find key).getD []

/-! ## `create` -/

/-- The function `createBlobFromFile`: `files` gives the content of the files
that can be opened. The function throws when the file cannot be opened.
Otherwise it reads the file into a local `std::vector` and returns a blob
over `buffer.data()` with a deleter that does nothing; the vector is destroyed
when the function returns, so the blob that the caller gets has the size of
the file and points at a released buffer. -/
def createBlobFromFile (files : Str → Option Str) (filePath : Str) : Except Exn Blob :=
  match files filePath with
  | none => .error (.runtime_error ("Failed to open file: ".toList ++ filePath))
  | some bytes =>
    let size := bytes.length
    .ok (.released size)

/-- The body of the first metadata loop of `create`, over the keys of the
source archive. -/
def metadataBody (files : Str → Option Str) (origin : Archive) (newMetadata : StrMap)
    (metakey : Str) : Except Exn (List Op) :=
  if metakey = "Counter".toList then
    .ok []
  else if findStr metakey "Illustration_".toList = some 0 then
    match (if newMetadata.find metakey ≠ none then
        createBlobFromFile files (newMetadata.get metakey)
      else origin.getIllustrationData) with
    | .error e => .error e
    | .ok illustBlob => .ok [.addIllustration 48 illustBlob]
  else
    match (if newMetadata.find metakey ≠ none then .ok (newMetadata.get metakey)
      else origin.getMetadata metakey) with
    | .error e => .error e
    | .ok metadata => .ok [.addMetadata metakey metadata "text/plain".toList]

/-- The body of the second metadata loop of `create`, over the pairs of the
override map. -/
def newMetadataBody (origin : Archive) (pair : Str × Str) : Except Exn (List Op) :=
  let existingKeys := origin.getMetadataKeys
  if pair.1 ∉ existingKeys then
    .ok [.addMetadata pair.1 pair.2 "text/plain".toList]
  else
    .ok []

/-- The metadata recreation of `create`: the two metadata loops. -/
def createMetadata (files : Str → Option Str) (origin : Archive) (newMetadata : StrMap) : Trace :=
  (forEachEmit (metadataBody files origin newMetadata) origin.getMetadataKeys).andThen
    (forEachEmit (newMetadataBody origin) newMetadata)

/-- The item that `PatchItem` presents to the creator; `guess_is_front_article`
is declared in `tools.h`, which is not among the sources, and is a parameter. -/
def PatchItem.toWriterItem (guess_is_front_article : Str → Bool) (item : Item) :
    Except Exn WriterItem :=
  match PatchItem.getPath item with
  | .error e => .error e
  | .ok path =>
    .ok ⟨path, item.title, item.mimetype, PatchItem.getContentProvider item,
      [(.FRONT_ARTICLE, if guess_is_front_article item.mimetype then 1 else 0)]⟩

/-- Modelled from the spec: `CopyItem` is declared in `tools.h`, which is not
among the sources. The spec says of it: an item descriptor wrapping the
original item's path, title, media type, and content verbatim (no link
patching), with the front-article hint derived from the media type. -/
def CopyItem.toWriterItem (guess_is_front_article : Str → Bool) (item : Item) : WriterItem :=
  ⟨item.path, item.title, item.mimetype, item.data,
    [(.FRONT_ARTICLE, if guess_is_front_article item.mimetype then 1 else 0)]⟩

/-- The body of the entry loop of `create`. -/
def entryBody (guess_is_front_article : Str → Bool) (origin : Archive)
    (entry : Entry origin.entryCount) : Except Exn (List Op) :=
  if origin.hasNewNamespaceScheme then
    if entry.isRedirect then
      match origin.getRedirectEntry entry with
      | .error e => .error e
      | .ok target =>
        .ok [.addRedirection entry.path entry.title target.path [(.FRONT_ARTICLE, 1)]]
    else
      match entry.getItem with
      | .error e => .error e
      | .ok item => .ok [.addItem (CopyItem.toWriterItem guess_is_front_article item)]
  else
    let path := entry.path
    let first := path.headD (Char.ofNat 0)
    if first = 'Z' ∨ first = 'X' ∨ first = 'M' then
      .ok []
    else
      match substr path 2 none with
      | .error e => .error e
      | .ok path =>
        if entry.isRedirect then
          match origin.getRedirectEntry entry with
          | .error e => .error e
          | .ok target =>
            match substr target.path 2 none with
            | .error e => .error e
            | .ok redirectPath => .ok [.addRedirection path entry.title redirectPath []]
        else
          match entry.getItem with
          | .error e => .error e
          | .ok item =>
            match PatchItem.toWriterItem guess_is_front_article item with
            | .error e => .error e
            | .ok tmpItem => .ok [.addItem tmpItem]

/-- The entry loop of `create`. -/
def createEntries (guess_is_front_article : Str → Bool) (origin : Archive) : Trace :=
  forEachEmit (entryBody guess_is_front_article origin) origin.iterEfficient

/-- The paths that start with one of the reserved prefixes `Z`, `X`, `M`. -/
def startsWithReserved (path : Str) : Bool :=
  match path with
  | [] => false
  | c :: _ => c = 'Z' ∨ c = 'X' ∨ c = 'M'

/-- The defensive stripping step, as the spec words it: the first two
characters are removed when the path is longer than 2 characters and its
second character is the separator; the path is left as it is otherwise. -/
def stripNamespace (path : Str) : Str :=
  if path.length > 2 ∧ path[1]? = some '/' then path.drop 2 else path

/-- The operation that the entry loop emits for a non-reserved entry of a
legacy archive whose paths have at least two characters: an add-redirection
for a redirect entry, with the path of the entry and the path of its target
cut after their first two characters, and an add-item otherwise, with the
path stripped defensively and the content patched. -/
def legacyOperation (guess_is_front_article : Str → Bool) (origin : Archive)
    (entry : Entry origin.entryCount) : Op :=
  match entry.kind with
  | .redirect target =>
    .addRedirection (entry.path.drop 2) entry.title ((origin.entryAt target).path.drop 2) []
  | .item mimetype data =>
    .addItem ⟨stripNamespace entry.path, entry.title, mimetype,
      PatchItem.getContentProvider ⟨entry.path, entry.title, mimetype, data⟩,
      [(.FRONT_ARTICLE, if guess_is_front_article mimetype then 1 else 0)]⟩

/-- A legacy archive: the article `A/index.html`, the index entry `X/fulltext`,
a redirect `A/home` to the article, and the metadata entry `M/Title`. -/
def sampleLegacyArchive : Archive :=
  ⟨false, [], none, 4,
    ![⟨"A/index.html".toList, "Home".toList,
        .item "text/html".toList (hrefTag "../I/pic.png".toList)⟩,
      ⟨"X/fulltext".toList, [], .item "application/octet-stream".toList []⟩,
      ⟨"A/home".toList, "Start".toList, .redirect 0⟩,
      ⟨"M/Title".toList, [], .item "text/plain".toList "T".toList⟩]⟩

/-- A legacy archive in which the entry `A/r` redirects to the item whose path
is `A/`, the entry of the namespace `A` with the empty url. -/
def redirectToShortPathArchive : Archive :=
  ⟨false, [], none, 2,
    ![⟨"A/r".toList, [], .redirect 1⟩, ⟨"A/".toList, [], .item "text/html".toList []⟩]⟩

/-- A legacy archive whose only entry is an item with the one-character path
`A`. -/
def oneCharacterPathArchive : Archive :=
  ⟨false, [], none, 1, ![⟨"A".toList, [], .item "text/html".toList []⟩]⟩

/-- A legacy archive in which the entry whose path is `A/` redirects to the
item `A/x`. -/
def redirectFromShortPathArchive : Archive :=
  ⟨false, [], none, 2,
    ![⟨"A/".toList, [], .redirect 1⟩, ⟨"A/x".toList, [], .item "text/html".toList []⟩]⟩

/-- The keys of the registrations of a list of calls: the name of every
`addMetadata` call. -/
def metadataNames (ops : List Op) : List Str :=
  ops.filterMap fun op =>
    match op with
    | .addMetadata name _ _ => some name
    | _ => none

/-- A source archive with an illustration and a title. -/
def illustratedArchive : Archive :=
  ⟨true, [("Illustration_48x48@1".toList, "PNG".toList), ("Title".toList, "T".toList)],
    some "PNG".toList, 0, Fin.elim0⟩

/-- A source archive whose only illustration is the one of 96 pixels: it has
no illustration item of 48 pixels for `getIllustrationItem()`. -/
def largeIllustrationArchive : Archive :=
  ⟨true, [("Illustration_96x96@2".toList, "PNG".toList), ("Title".toList, "T".toList)],
    none, 0, Fin.elim0⟩

/-- A source archive without the metadata key `Counter`. -/
def noCounterArchive : Archive :=
  ⟨true, [("Title".toList, "T".toList)], none, 0, Fin.elim0⟩

/-- A source archive with the metadata key `Counter`. -/
def counterArchive : Archive :=
  ⟨true, [("Counter".toList, "text/html=1".toList), ("Title".toList, "T".toList)], none, 0,
    Fin.elim0⟩

/-! ## The parser of the metadata override option -/

/-- The function `parseKeyValuePair`. -/
def parseKeyValuePair (pair : Str) : Except Exn (Str × Str) :=
  match findChar pair ':' 0 with
  | none => .error (.invalid_argument ("Invalid key-value pair format: ".toList ++ pair))
  | some colonPos =>
    match substr pair 0 (some colonPos) with
    | .error e => .error e
    | .ok key =>
      match substr pair (colonPos + 1) none with
      | .error e => .error e
      | .ok value => .ok (key, value)

/-- The `while` loop of `parseInputString`, from the state `endPos`, `result`.
The loop moves `endPos` forward at every turn, so that it ends after at most
`input.length + 1` turns; `fuel` bounds the number of turns, and `none` says
that the bound was reached. -/
def parseLoop (input : Str) : Nat → Nat → StrMap → Option (Except Exn StrMap)
  | 0, _, _ => none
  | fuel + 1, endPos, result =>
    match findChar input lbrace endPos with
    | none => some (.ok result)
    | some start =>
      match findChar input rbrace start with
      | none => some (.error (.invalid_argument "Mismatched braces in input string".toList))
      | some e =>
        match substr input (start + 1) (some (e - start - 1)) with
        | .error x => some (.error x)
        | .ok segment =>
          match parseKeyValuePair segment with
          | .error x => some (.error x)
          | .ok keyValue => parseLoop input fuel e (result.assign keyValue.1 keyValue.2)

/-- The function `parseInputString`; the result is never `none`
(`parseInputString_total`). -/
def parseInputString (input : Str) : Option (Except Exn StrMap) :=
  parseLoop input (input.length + 1) 0 []

/-- The segment `{key:value}` of the metadata override option. -/
def segment (key value : Str) : Str :=
  [lbrace] ++ key ++ [':'] ++ value ++ [rbrace]

/-- The concatenation of the segments of a list of pairs. -/
def segments (kvs : List (Str × Str)) : Str :=
  kvs.flatMap fun kv => segment kv.1 kv.2

/-- The map built by assigning the pairs of a list in their order. -/
def assignAll (result : StrMap) (kvs : List (Str × Str)) : StrMap :=
  kvs.foldl (fun m kv => m.assign kv.1 kv.2) result

/-- Every opening brace of `pre` is followed, inside `pre`, by a closing
brace: `pre` leaves no opening brace unclosed. -/
def BracesClosed (pre : Str) : Prop :=
  ∀ a b, pre = a ++ lbrace :: b → rbrace ∈ b

/-- The input has an opening brace with no closing brace after it. -/
def HasUnclosedBrace (input : Str) : Prop :=
  ∃ pre post, input = pre ++ lbrace :: post ∧ rbrace ∉ post

/-- The input has a brace-delimited pair `{seg}` without a colon, and no
opening brace is left unclosed before the pair. -/
def HasPairWithoutColon (input : Str) : Prop :=
  ∃ pre seg post, input = pre ++ lbrace :: (seg ++ rbrace :: post) ∧
    ':' ∉ seg ∧ rbrace ∉ seg ∧ BracesClosed pre

/-- The input has a closing brace with no unclosed opening brace before it. -/
def HasStrayClosingBrace (input : Str) : Prop :=
  ∃ pre post, input = pre ++ rbrace :: post ∧ BracesClosed pre

/-! ## Lemmas on the string functions -/

theorem findStrAux_eq_none_iff (pat : Str) (s : Str) (i : Nat) :
    findStrAux pat s i = none ↔ ¬ pat <:+: s := by
  induction s generalizing i with
  | nil =>
    cases pat <;> simp [findStrAux, List.isPrefixOf]
  | cons c cs ih =>
    unfold findStrAux
    by_cases h : pat.isPrefixOf (c :: cs) = true
    · simp only [h, if_true]
      have hp : pat <+: c :: cs := List.isPrefixOf_iff_prefix.mp h
      simp [List.infix_cons_iff, hp]
    · simp only [h]
      have hp : ¬ pat <+: c :: cs := fun hp => h (List.isPrefixOf_iff_prefix.mpr hp)
      simp [List.infix_cons_iff, hp, ih]

theorem findStr_eq_none_iff (s pat : Str) : findStr s pat = none ↔ ¬ pat <:+: s :=
  findStrAux_eq_none_iff pat s 0

theorem replaceScan_of_not_infix (search repl : Str) (s : Str) (h : ¬ search <:+: s) :
    replaceScan search repl 0 s = s := by
  induction s with
  | nil => simp [replaceScan]
  | cons c cs ih =>
    have hp : ¬ search <+: c :: cs := fun hp => h hp.isInfix
    have hq : ¬ search <:+: cs := fun hq => h (List.infix_cons_iff.mpr (Or.inr hq))
    have hb : search.isPrefixOf (c :: cs) = false := by
      cases hx : search.isPrefixOf (c :: cs)
      · rfl
      · exact absurd (List.isPrefixOf_iff_prefix.mp hx) hp
    simp [replaceScan, hb, ih hq]

theorem replaceStringInPlace_of_not_infix (subject search repl : Str)
    (h : ¬ search <:+: subject) : replaceStringInPlace subject search repl = subject := by
  unfold replaceStringInPlace
  split
  · rfl
  · exact replaceScan_of_not_infix search repl subject h

theorem patchLinks_eq_foldl_passes (content : Str) :
    patchLinks content =
      passes.foldl (fun content pass => replaceStringInPlace content pass.1 pass.2) content := by
  have e : passes =
      [([squote] ++ "../../".toList ++ ['A'] ++ "/".toList, [squote] ++ "../".toList),
        ([squote] ++ "../".toList ++ ['A'] ++ "/".toList, [squote]),
        ([squote] ++ "../../".toList ++ ['I'] ++ "/".toList, [squote] ++ "../".toList),
        ([squote] ++ "../".toList ++ ['I'] ++ "/".toList, [squote]),
        ([squote] ++ "../../".toList ++ ['J'] ++ "/".toList, [squote] ++ "../".toList),
        ([squote] ++ "../".toList ++ ['J'] ++ "/".toList, [squote]),
        ([squote] ++ "../../".toList ++ ['-'] ++ "/".toList, [squote] ++ "../".toList),
        ([squote] ++ "../".toList ++ ['-'] ++ "/".toList, [squote]),
        ([dquote] ++ "../../".toList ++ ['A'] ++ "/".toList, [dquote] ++ "../".toList),
        ([dquote] ++ "../".toList ++ ['A'] ++ "/".toList, [dquote]),
        ([dquote] ++ "../../".toList ++ ['I'] ++ "/".toList, [dquote] ++ "../".toList),
        ([dquote] ++ "../".toList ++ ['I'] ++ "/".toList, [dquote]),
        ([dquote] ++ "../../".toList ++ ['J'] ++ "/".toList, [dquote] ++ "../".toList),
        ([dquote] ++ "../".toList ++ ['J'] ++ "/".toList, [dquote]),
        ([dquote] ++ "../../".toList ++ ['-'] ++ "/".toList, [dquote] ++ "../".toList),
        ([dquote] ++ "../".toList ++ ['-'] ++ "/".toList, [dquote])] := by
    decide
  rw [e]
  simp only [patchLinks, List.foldl]

theorem patchLinks_of_no_pattern (content : Str)
    (h : ∀ pat ∈ targetPatterns, ¬ pat <:+: content) : patchLinks content = content := by
  have h' : ∀ pat, pat ∈ targetPatterns → replaceStringInPlace content pat = fun _ => content :=
    fun pat hp => funext fun r => replaceStringInPlace_of_not_infix content pat r (h pat hp)
  simp only [patchLinks, List.foldl, List.singleton_append, List.cons_append, List.nil_append]
  rw [h' _ (by decide), h' _ (by decide), h' _ (by decide), h' _ (by decide),
    h' _ (by decide), h' _ (by decide), h' _ (by decide), h' _ (by decide),
    h' _ (by decide), h' _ (by decide), h' _ (by decide), h' _ (by decide),
    h' _ (by decide), h' _ (by decide), h' _ (by decide), h' _ (by decide)]

theorem replaceScan_of_head_not_mem (q : Char) (p repl : Str) (s : Str) (k : Nat)
    (h : q ∉ s) : replaceScan (q :: p) repl k s = s.drop k := by
  induction s generalizing k with
  | nil => simp [replaceScan]
  | cons c cs ih =>
    have hc : q ≠ c := fun e => h (e ▸ List.mem_cons_self _ _)
    have hcs : q ∉ cs := fun m => h (List.mem_cons_of_mem _ m)
    cases k with
    | zero => simp [replaceScan, List.isPrefixOf, hc, ih 0 hcs]
    | succ k => simp [replaceScan, ih k hcs]

theorem replaceStringInPlace_head (q : Char) (p repl : Str) (s : Str) (h : q ∉ s) :
    replaceStringInPlace (q :: s) (q :: p) repl =
      if p.isPrefixOf s then repl ++ s.drop p.length else q :: s := by
  simp [replaceStringInPlace, replaceScan, List.isPrefixOf, replaceScan_of_head_not_mem q p repl s _ h]

theorem replaceStringInPlace_other (q q' : Char) (p repl : Str) (s : Str) (hq : q' ≠ q)
    (h : q' ∉ s) : replaceStringInPlace (q :: s) (q' :: p) repl = q :: s := by
  apply replaceStringInPlace_of_not_infix
  intro hin
  have hm : q' ∈ q :: s := hin.subset (List.mem_cons_self _ _)
  rcases List.mem_cons.mp hm with e | m
  · exact hq e
  · exact h m

theorem replaceStringInPlace_head_stepTail (q : Char) (p r : Str) (s : Str) (h : q ∉ s) :
    replaceStringInPlace (q :: s) (q :: p) (q :: r) = q :: stepTail p r s := by
  rw [replaceStringInPlace_head q p (q :: r) s h]
  unfold stepTail
  split <;> simp

theorem not_mem_stepTail (c : Char) (p r : Str) (s : Str) (hr : c ∉ r) (hs : c ∉ s) :
    c ∉ stepTail p r s := by
  unfold stepTail
  split
  · intro hm
    rcases List.mem_append.mp hm with m | m
    · exact hr m
    · exact hs (List.mem_of_mem_drop m)
  · exact hs

theorem patchLinks_quote_cons (q : Char) (s : Str) (hq : q = squote ∨ q = dquote)
    (h1 : squote ∉ s) (h2 : dquote ∉ s) : patchLinks (q :: s) = q :: stripTail s := by
  have nm : ∀ (c : Char) (n : Char) (u : Str), c ∉ "../".toList → c ∉ u →
      c ∉ stepTail ("../".toList ++ [n] ++ "/".toList) []
        (stepTail ("../../".toList ++ [n] ++ "/".toList) "../".toList u) := by
    intro c n u hc hu
    exact not_mem_stepTail c _ _ _ (by simp) (not_mem_stepTail c _ _ _ hc hu)
  have inner : ∀ (q : Char) (u : Str), q ∉ "../".toList → q ∉ u →
      ['A', 'I', 'J', '-'].foldl (fun content ns =>
        replaceStringInPlace
          (replaceStringInPlace content ([q] ++ "../../".toList ++ [ns] ++ "/".toList)
            ([q] ++ "../".toList))
          ([q] ++ "../".toList ++ [ns] ++ "/".toList) [q]) (q :: u) = q :: stripTail u := by
    intro q u hq3 hu
    have one : ∀ (n : Char) (u : Str), q ∉ u →
        replaceStringInPlace
          (replaceStringInPlace (q :: u) ([q] ++ "../../".toList ++ [n] ++ "/".toList)
            ([q] ++ "../".toList))
          ([q] ++ "../".toList ++ [n] ++ "/".toList) [q] =
        q :: stepTail ("../".toList ++ [n] ++ "/".toList) []
          (stepTail ("../../".toList ++ [n] ++ "/".toList) "../".toList u) := by
      intro n u hu
      have a := replaceStringInPlace_head_stepTail q ("../../".toList ++ [n] ++ "/".toList)
        "../".toList u hu
      have b := replaceStringInPlace_head_stepTail q ("../".toList ++ [n] ++ "/".toList) []
        (stepTail ("../../".toList ++ [n] ++ "/".toList) "../".toList u)
        (not_mem_stepTail q _ _ _ hq3 hu)
      simp only [List.singleton_append, List.cons_append, List.nil_append, List.append_assoc]
        at a b ⊢
      rw [a, b]
    simp only [List.foldl, stripTail]
    rw [one 'A' u hu, one 'I' _ (nm q 'A' u hq3 hu), one 'J' _ (nm q 'I' _ hq3 (nm q 'A' u hq3 hu)),
      one '-' _ (nm q 'J' _ hq3 (nm q 'I' _ hq3 (nm q 'A' u hq3 hu)))]
  have other : ∀ (q q' : Char) (u : Str), q' ≠ q → q' ∉ u →
      ['A', 'I', 'J', '-'].foldl (fun content ns =>
        replaceStringInPlace
          (replaceStringInPlace content ([q'] ++ "../../".toList ++ [ns] ++ "/".toList)
            ([q'] ++ "../".toList))
          ([q'] ++ "../".toList ++ [ns] ++ "/".toList) [q']) (q :: u) = q :: u := by
    intro q q' u hne hu
    simp only [List.foldl, List.singleton_append, List.cons_append]
    simp only [replaceStringInPlace_other q q' _ _ u hne hu]
  have sq3 : squote ∉ "../".toList := by decide
  have dq3 : dquote ∉ "../".toList := by decide
  unfold patchLinks
  rw [List.foldl_cons, List.foldl_cons, List.foldl_nil]
  rcases hq with rfl | rfl
  · rw [inner squote s sq3 h1]
    exact other squote dquote _ (by decide) (by
      unfold stripTail
      simp only [List.foldl]
      exact nm _ _ _ dq3 (nm _ _ _ dq3 (nm _ _ _ dq3 (nm _ _ _ dq3 h2))))
  · rw [other dquote squote s (by decide) h1]
    exact inner dquote s dq3 h2

theorem getContentProvider_of_patched (item : Item)
    (h : "text/html".toList <:+: item.mimetype ∨ "text/css".toList <:+: item.mimetype) :
    PatchItem.getContentProvider item = patchLinks item.data := by
  unfold PatchItem.getContentProvider
  simp only [findStr_eq_none_iff]
  rw [if_neg]
  rintro ⟨a, b⟩
  exact h.elim a b

theorem not_prefix_of_cons_mem (q : Char) (r : Str) (later : List Str)
    (h : ∀ pat ∈ later, ¬ pat <+: q :: r) (b : Str) (hb : q :: b ∈ later) : ¬ b <+: r :=
  fun hp => h _ hb (List.cons_prefix_cons.mpr ⟨rfl, hp⟩)

theorem stripTail_depth2 (q n : Char) (t : Str) (hq : q = squote ∨ q = dquote)
    (hn : n ∈ ['A', 'I', 'J', '-'])
    (h : ∀ pat ∈ laterPatterns (q :: '.' :: '.' :: '/' :: '.' :: '.' :: '/' :: n :: ['/']),
      ¬ pat <+: q :: '.' :: '.' :: '/' :: t) :
    stripTail ('.' :: '.' :: '/' :: '.' :: '.' :: '/' :: n :: '/' :: t) = '.' :: '.' :: '/' :: t := by
  have key := not_prefix_of_cons_mem q _ _ h
  simp only [List.mem_cons, List.mem_singleton, List.not_mem_nil, or_false] at hn
  rcases hq with rfl | rfl <;> rcases hn with rfl | rfl | rfl | rfl <;>
    (try have fA1 := key ('.' :: '.' :: '/' :: 'A' :: ['/']) (by decide)
     try have fI2 := key ('.' :: '.' :: '/' :: '.' :: '.' :: '/' :: 'I' :: ['/']) (by decide)
     try have fI1 := key ('.' :: '.' :: '/' :: 'I' :: ['/']) (by decide)
     try have fJ2 := key ('.' :: '.' :: '/' :: '.' :: '.' :: '/' :: 'J' :: ['/']) (by decide)
     try have fJ1 := key ('.' :: '.' :: '/' :: 'J' :: ['/']) (by decide)
     try have fM2 := key ('.' :: '.' :: '/' :: '.' :: '.' :: '/' :: '-' :: ['/']) (by decide)
     try have fM1 := key ('.' :: '.' :: '/' :: '-' :: ['/']) (by decide)
     clear key h
     simp at *
     simp [stripTail, stepTail, *])

theorem stripTail_depth1 (q n : Char) (t : Str) (hq : q = squote ∨ q = dquote)
    (hn : n ∈ ['A', 'I', 'J', '-'])
    (h : ∀ pat ∈ laterPatterns (q :: '.' :: '.' :: '/' :: n :: ['/']), ¬ pat <+: q :: t) :
    stripTail ('.' :: '.' :: '/' :: n :: '/' :: t) = t := by
  have key := not_prefix_of_cons_mem q _ _ h
  simp only [List.mem_cons, List.mem_singleton, List.not_mem_nil, or_false] at hn
  rcases hq with rfl | rfl <;> rcases hn with rfl | rfl | rfl | rfl <;>
    (try have fI2 := key ('.' :: '.' :: '/' :: '.' :: '.' :: '/' :: 'I' :: ['/']) (by decide)
     try have fI1 := key ('.' :: '.' :: '/' :: 'I' :: ['/']) (by decide)
     try have fJ2 := key ('.' :: '.' :: '/' :: '.' :: '.' :: '/' :: 'J' :: ['/']) (by decide)
     try have fJ1 := key ('.' :: '.' :: '/' :: 'J' :: ['/']) (by decide)
     try have fM2 := key ('.' :: '.' :: '/' :: '.' :: '.' :: '/' :: '-' :: ['/']) (by decide)
     try have fM1 := key ('.' :: '.' :: '/' :: '-' :: ['/']) (by decide)
     clear key h
     simp [stripTail, stepTail, *])

/-- C1 as the program has it. With an HTML or CSS media type, a quote
character `q`, a namespace character `n` and a text `t` without a quote
character: the content `q ../../ n / t` becomes `q ../ t` when `q ../ t` does
not begin with the target pattern of a later pass, and the content
`q ../ n / t` becomes `q t` when `q t` does not begin with the target pattern
of a later pass. -/
theorem linkPatcher_rewrites_pattern_once (path title mimetype : Str) (q n : Char) (t : Str)
    (hm : "text/html".toList <:+: mimetype ∨ "text/css".toList <:+: mimetype)
    (hq : q = squote ∨ q = dquote) (hn : n ∈ ['A', 'I', 'J', '-'])
    (hs : squote ∉ t) (hd : dquote ∉ t) :
    ((∀ pat ∈ laterPatterns (q :: "../../".toList ++ [n] ++ "/".toList),
        ¬ pat <+: q :: "../".toList ++ t) →
      PatchItem.getContentProvider
        ⟨path, title, mimetype, q :: "../../".toList ++ [n] ++ "/".toList ++ t⟩ =
        q :: "../".toList ++ t) ∧
    ((∀ pat ∈ laterPatterns (q :: "../".toList ++ [n] ++ "/".toList), ¬ pat <+: q :: t) →
      PatchItem.getContentProvider
        ⟨path, title, mimetype, q :: "../".toList ++ [n] ++ "/".toList ++ t⟩ = q :: t) := by
  have hn' : n ≠ squote ∧ n ≠ dquote := by
    simp only [List.mem_cons, List.mem_singleton, List.not_mem_nil, or_false] at hn
    rcases hn with rfl | rfl | rfl | rfl <;> decide
  constructor
  · intro h
    rw [getContentProvider_of_patched _ hm]
    show patchLinks (q :: '.' :: '.' :: '/' :: '.' :: '.' :: '/' :: n :: '/' :: t) = _
    have m1 : squote ∉ '.' :: '.' :: '/' :: '.' :: '.' :: '/' :: n :: '/' :: t := by
      simp only [List.mem_cons, not_or]
      exact ⟨by decide, by decide, by decide, by decide, by decide, by decide,
        fun e => hn'.1 e.symm, by decide, hs⟩
    have m2 : dquote ∉ '.' :: '.' :: '/' :: '.' :: '.' :: '/' :: n :: '/' :: t := by
      simp only [List.mem_cons, not_or]
      exact ⟨by decide, by decide, by decide, by decide, by decide, by decide,
        fun e => hn'.2 e.symm, by decide, hd⟩
    rw [patchLinks_quote_cons q _ hq m1 m2]
    rw [stripTail_depth2 q n t hq hn h]
    rfl
  · intro h
    rw [getContentProvider_of_patched _ hm]
    show patchLinks (q :: '.' :: '.' :: '/' :: n :: '/' :: t) = _
    have m1 : squote ∉ '.' :: '.' :: '/' :: n :: '/' :: t := by
      simp only [List.mem_cons, not_or]
      exact ⟨by decide, by decide, by decide, fun e => hn'.1 e.symm, by decide, hs⟩
    have m2 : dquote ∉ '.' :: '.' :: '/' :: n :: '/' :: t := by
      simp only [List.mem_cons, not_or]
      exact ⟨by decide, by decide, by decide, fun e => hn'.2 e.symm, by decide, hd⟩
    rw [patchLinks_quote_cons q _ hq m1 m2]
    rw [stripTail_depth1 q n t hq hn h]

/-- Witness of `linkPatcher_rewrites_pattern_once`: the double quote, the
namespace `I` and the text `pic.png`. -/
theorem linkPatcher_rewrites_pattern_once_witness :
    PatchItem.getContentProvider
        ⟨[], [], "text/html".toList,
          dquote :: "../../".toList ++ ['I'] ++ "/".toList ++ "pic.png".toList⟩ =
        dquote :: "../".toList ++ "pic.png".toList ∧
    PatchItem.getContentProvider
        ⟨[], [], "text/html".toList,
          dquote :: "../".toList ++ ['I'] ++ "/".toList ++ "pic.png".toList⟩ =
        dquote :: "pic.png".toList :=
  have h := linkPatcher_rewrites_pattern_once [] [] "text/html".toList dquote 'I'
    "pic.png".toList (Or.inl ⟨[], [], rfl⟩) (Or.inr rfl) (by decide) (by decide) (by decide)
  ⟨h.1 (by decide), h.2 (by decide)⟩

/-- C1 fails as stated. The texts `A/x` and `../I/x` contain no quote
character; yet the content `"../../A/A/x` becomes `"x` and not `"../A/x`
(the depth-2 rewrite for `A` is followed by the depth-1 rewrite for `A` at
the same position), and the content `"../A/../I/x` becomes `"x` and not
`"../I/x` (the depth-1 rewrite for `A` is followed by the depth-1 rewrite for
`I`). -/
theorem linkPatcher_rewrites_twice :
    (squote ∉ "A/x".toList ∧ dquote ∉ "A/x".toList ∧
      PatchItem.getContentProvider
        ⟨[], [], "text/html".toList,
          dquote :: "../../".toList ++ ['A'] ++ "/".toList ++ "A/x".toList⟩ =
        dquote :: "x".toList ∧
      PatchItem.getContentProvider
        ⟨[], [], "text/html".toList,
          dquote :: "../../".toList ++ ['A'] ++ "/".toList ++ "A/x".toList⟩ ≠
        dquote :: "../".toList ++ "A/x".toList) ∧
    (squote ∉ "../I/x".toList ∧ dquote ∉ "../I/x".toList ∧
      PatchItem.getContentProvider
        ⟨[], [], "text/html".toList,
          dquote :: "../".toList ++ ['A'] ++ "/".toList ++ "../I/x".toList⟩ =
        dquote :: "x".toList ∧
      PatchItem.getContentProvider
        ⟨[], [], "text/html".toList,
          dquote :: "../".toList ++ ['A'] ++ "/".toList ++ "../I/x".toList⟩ ≠
        dquote :: "../I/x".toList) := by
  decide

/-- C3. For a media type that contains neither `text/html` nor `text/css`, the
content provided by `PatchItem::getContentProvider` is the content of the
source item, unchanged, whatever the content is. -/
theorem otherMediaType_content_unchanged (item : Item)
    (hhtml : ¬ "text/html".toList <:+: item.mimetype)
    (hcss : ¬ "text/css".toList <:+: item.mimetype) :
    PatchItem.getContentProvider item = item.data := by
  unfold PatchItem.getContentProvider
  rw [if_pos ⟨(findStr_eq_none_iff _ _).mpr hhtml, (findStr_eq_none_iff _ _).mpr hcss⟩]
  rfl

/-- Witness of `otherMediaType_content_unchanged`: a PNG item whose content
holds the target pattern `"../A/`. -/
theorem otherMediaType_content_unchanged_witness :
    PatchItem.getContentProvider
        ⟨"I/pic.png".toList, [], "image/png".toList, dquote :: "../A/x".toList⟩ =
      dquote :: "../A/x".toList :=
  otherMediaType_content_unchanged
    ⟨"I/pic.png".toList, [], "image/png".toList, dquote :: "../A/x".toList⟩
    (by decide) (by decide)

/-- C10. With an HTML or CSS media type, a content in which none of the 16
target patterns occurs is returned unchanged, and so is the result of patching
it again. -/
theorem linkPatcher_fixes_patternFree_content (item : Item)
    (hm : "text/html".toList <:+: item.mimetype ∨ "text/css".toList <:+: item.mimetype)
    (h : ∀ pat ∈ targetPatterns, ¬ pat <:+: item.data) :
    PatchItem.getContentProvider item = item.data ∧
    PatchItem.getContentProvider { item with data := PatchItem.getContentProvider item } =
      item.data := by
  have one : PatchItem.getContentProvider item = item.data := by
    rw [getContentProvider_of_patched item hm]
    exact patchLinks_of_no_pattern item.data h
  refine ⟨one, ?_⟩
  rw [one]
  exact one

/-- Witness of `linkPatcher_fixes_patternFree_content`: a CSS item whose links
have no namespace segment. -/
theorem linkPatcher_fixes_patternFree_content_witness :
    PatchItem.getContentProvider
        ⟨"-/s.css".toList, [], "text/css".toList,
          "a \x7b background: url(".toList ++ [squote] ++ "../img/b.png".toList ++ [squote] ++
            ") \x7d".toList⟩ =
      "a \x7b background: url(".toList ++ [squote] ++ "../img/b.png".toList ++ [squote] ++
        ") \x7d".toList ∧
    PatchItem.getContentProvider
        { (⟨"-/s.css".toList, [], "text/css".toList,
          "a \x7b background: url(".toList ++ [squote] ++ "../img/b.png".toList ++ [squote] ++
            ") \x7d".toList⟩ : Item) with
          data := PatchItem.getContentProvider ⟨"-/s.css".toList, [], "text/css".toList,
            "a \x7b background: url(".toList ++ [squote] ++ "../img/b.png".toList ++ [squote] ++
              ") \x7d".toList⟩ } =
      "a \x7b background: url(".toList ++ [squote] ++ "../img/b.png".toList ++ [squote] ++
        ") \x7d".toList :=
  linkPatcher_fixes_patternFree_content
    ⟨"-/s.css".toList, [], "text/css".toList,
      "a \x7b background: url(".toList ++ [squote] ++ "../img/b.png".toList ++ [squote] ++
        ") \x7d".toList⟩
    (Or.inr (by decide)) (by decide)

theorem substr_npos_of_le (s : Str) (pos : Nat) (h : pos ≤ s.length) :
    substr s pos none = .ok (s.drop pos) := by
  unfold substr
  rw [if_neg (by omega)]

theorem getPath_eq_stripNamespace (item : Item) :
    PatchItem.getPath item = .ok (stripNamespace item.path) := by
  unfold PatchItem.getPath stripNamespace
  by_cases h : item.path.length > 2 ∧ item.path[1]? = some '/'
  · simp only [h, and_self, if_true]
    exact substr_npos_of_le _ _ (by omega)
  · simp only [h, if_false]

theorem forEachEmit_filter_map {α : Type} (body : α → Except Exn (List Op)) (keep : α → Bool)
    (f : α → Op) (l : List α)
    (h : ∀ a ∈ l, body a = .ok (if keep a then [f a] else [])) :
    forEachEmit body l = ((l.filter keep).map f, none) := by
  induction l with
  | nil => rfl
  | cons a rest ih =>
    have ha := h a (List.mem_cons_self _ _)
    have hr := ih (fun b hb => h b (List.mem_cons_of_mem _ hb))
    unfold forEachEmit
    rw [ha]
    simp only [hr]
    cases hk : keep a <;> simp [List.filter, hk]

theorem entryBody_legacy (guess_is_front_article : Str → Bool) (origin : Archive)
    (hlegacy : origin.hasNewNamespaceScheme = false)
    (hlen : ∀ i, 2 ≤ (origin.entryAt i).path.length)
    (entry : Entry origin.entryCount) (he : 2 ≤ entry.path.length) :
    entryBody guess_is_front_article origin entry =
      .ok (if !(startsWithReserved entry.path) then
        [legacyOperation guess_is_front_article origin entry] else []) := by
  obtain ⟨path, title, kind⟩ := entry
  obtain _ | ⟨c, cs⟩ := path
  · simp at he
  simp only [entryBody, hlegacy, List.headD_cons, startsWithReserved, Bool.false_eq_true, if_false]
  by_cases hres : c = 'Z' ∨ c = 'X' ∨ c = 'M'
  · simp [hres]
  · simp only [hres, if_false, decide_False, Bool.not_false, if_true]
    rw [substr_npos_of_le _ _ he]
    cases kind with
    | redirect target =>
      simp only [Entry.isRedirect, Archive.getRedirectEntry, if_true, legacyOperation]
      rw [substr_npos_of_le _ _ (hlen target)]
    | item mimetype data =>
      simp only [Entry.isRedirect, Entry.getItem, Bool.false_eq_true, if_false, legacyOperation,
        PatchItem.toWriterItem, getPath_eq_stripNamespace]

theorem createEntries_legacy (guess_is_front_article : Str → Bool) (origin : Archive)
    (hlegacy : origin.hasNewNamespaceScheme = false)
    (hlen : ∀ i, 2 ≤ (origin.entryAt i).path.length) :
    createEntries guess_is_front_article origin =
      ((origin.iterEfficient.filter fun entry => !(startsWithReserved entry.path)).map
        (legacyOperation guess_is_front_article origin), none) := by
  unfold createEntries
  apply forEachEmit_filter_map
  intro entry hmem
  obtain ⟨i, rfl⟩ := (List.mem_ofFn _ _).mp hmem
  exact entryBody_legacy guess_is_front_article origin hlegacy hlen _ (hlen i)

/-- C5. In the legacy layout, when the paths of all source entries have at
least two characters, the entry loop of `create` ends without an exception and
the operations it emits are, in the source order, one operation for every entry
whose path does not start with `Z`, `X` or `M` (an add-redirection for a
redirect entry, an add-item otherwise), and nothing for the other entries. -/
theorem legacy_entryLoop_operations (guess_is_front_article : Str → Bool) (origin : Archive)
    (hlegacy : origin.hasNewNamespaceScheme = false)
    (hlen : ∀ i, 2 ≤ (origin.entryAt i).path.length) :
    createEntries guess_is_front_article origin =
      ((origin.iterEfficient.filter fun entry => !(startsWithReserved entry.path)).map
        (legacyOperation guess_is_front_article origin), none) :=
  createEntries_legacy guess_is_front_article origin hlegacy hlen

/-- Witness of `legacy_entryLoop_operations`: a legacy archive with an
article, an index entry, a redirect to the article and a metadata entry. -/
theorem legacy_entryLoop_operations_witness :
    sampleLegacyArchive.hasNewNamespaceScheme = false ∧
    (∀ i, 2 ≤ (sampleLegacyArchive.entryAt i).path.length) ∧
    createEntries (fun _ => true) sampleLegacyArchive =
      ((sampleLegacyArchive.iterEfficient.filter fun entry =>
          !(startsWithReserved entry.path)).map
        (legacyOperation (fun _ => true) sampleLegacyArchive), none) :=
  ⟨rfl, by decide,
    legacy_entryLoop_operations (fun _ => true) sampleLegacyArchive rfl (by decide)⟩

theorem sampleLegacyArchive_operations :
    createEntries (fun _ => true) sampleLegacyArchive =
      ([.addItem ⟨"index.html".toList, "Home".toList, "text/html".toList,
          hrefTag "pic.png".toList, [(.FRONT_ARTICLE, 1)]⟩,
        .addRedirection "home".toList "Start".toList "index.html".toList []], none) := by
  decide

/-- C4 on the code. The defensive stripping step leaves the path `A/` as it
is, and so does `PatchItem::getPath`; the entry loop of `create` strips the
paths of a redirection with an unguarded `substr(2)`: the redirection to the
item `A/` is emitted with the target path `""` while the item itself is
emitted with the path `A/`, and the redirection whose own path is `A/` is
emitted with the source path `""`. The same `substr(2)` throws
`std::out_of_range` on the item whose path is `A`, which the defensive step
leaves as it is. -/
theorem legacy_redirection_paths_not_defensive (guess_is_front_article : Str → Bool) :
    stripNamespace "A/".toList = "A/".toList ∧
    PatchItem.getPath ⟨"A/".toList, [], "text/html".toList, []⟩ = .ok "A/".toList ∧
    PatchItem.getPath ⟨"A".toList, [], "text/html".toList, []⟩ = .ok "A".toList ∧
    createEntries guess_is_front_article oneCharacterPathArchive = ([], some .out_of_range) ∧
    createEntries guess_is_front_article redirectToShortPathArchive =
      ([.addRedirection "r".toList [] [] [],
        .addItem ⟨"A/".toList, [], "text/html".toList, [],
          [(.FRONT_ARTICLE, if guess_is_front_article "text/html".toList then 1 else 0)]⟩],
        none) ∧
    createEntries guess_is_front_article redirectFromShortPathArchive =
      ([.addRedirection [] [] "x".toList [],
        .addItem ⟨"x".toList, [], "text/html".toList, [],
          [(.FRONT_ARTICLE, if guess_is_front_article "text/html".toList then 1 else 0)]⟩],
        none) := by
  refine ⟨rfl, rfl, rfl, rfl, ?_, ?_⟩
  · rw [createEntries_legacy _ _ rfl (by decide)]
    rfl
  · rw [createEntries_legacy _ _ rfl (by decide)]
    rfl

/-! ## The metadata recreation -/

theorem illustratedArchive_override_registered :
    createMetadata
      (fun path => if path = "logo.png".toList then some "NEW".toList else none)
      illustratedArchive
      [("Illustration_48x48@1".toList, "logo.png".toList),
        ("Language".toList, "fra".toList), ("Title".toList, "My Book".toList)] =
      ([.addIllustration 48 (.released 3),
        .addMetadata "Title".toList "My Book".toList "text/plain".toList,
        .addMetadata "Language".toList "fra".toList "text/plain".toList], none) := by
  decide

/-- A defect of the metadata loop. For the source whose only illustration is
`Illustration_96x96@2`, and without any override, `getIllustrationItem()`
throws at that key and the exception ends `create`; the main entry, a few
lines above, is read inside a `try` whose `catch` skips the step, and the spec
has the absence of an illustration skipped silently. -/
theorem createMetadata_aborts_without_illustration_item :
    createMetadata (fun _ => none) largeIllustrationArchive [] =
      ([], some .entry_not_found) := by
  decide

/-- C6 on the code. With a source that has no `Counter` key and an override
that has one, the second metadata loop of `create` registers the metadata
`Counter`; with a source that has the key, nothing is registered under
`Counter`. -/
theorem counter_registered_from_override (files : Str → Option Str) :
    createMetadata files noCounterArchive [("Counter".toList, "1".toList)] =
      ([.addMetadata "Title".toList "T".toList "text/plain".toList,
        .addMetadata "Counter".toList "1".toList "text/plain".toList], none) ∧
    "Counter".toList ∈
      metadataNames (createMetadata files noCounterArchive [("Counter".toList, "1".toList)]).1 ∧
    "Counter".toList ∉
      metadataNames (createMetadata files counterArchive [("Counter".toList, "1".toList)]).1 := by
  refine ⟨rfl, ?_, ?_⟩
  · have e : createMetadata files noCounterArchive [("Counter".toList, "1".toList)] =
        ([.addMetadata "Title".toList "T".toList "text/plain".toList,
          .addMetadata "Counter".toList "1".toList "text/plain".toList], none) := rfl
    rw [e]
    decide
  · have e : createMetadata files counterArchive [("Counter".toList, "1".toList)] =
        ([.addMetadata "Title".toList "T".toList "text/plain".toList], none) := rfl
    rw [e]
    decide

/-! ## The parser of the metadata override option -/

theorem findCharAux_append (c : Char) (a b : Str) (i : Nat) (h : c ∉ a) :
    findCharAux c (a ++ c :: b) i = some (i + a.length) := by
  induction a generalizing i with
  | nil => simp [findCharAux]
  | cons x xs ih =>
    have hx : x ≠ c := fun e => h (e ▸ List.mem_cons_self _ _)
    have hxs : c ∉ xs := fun m => h (List.mem_cons_of_mem _ m)
    rw [List.cons_append, findCharAux, if_neg hx, ih (i + 1) hxs, List.length_cons]
    exact congrArg some (by omega)

theorem findCharAux_of_not_mem (c : Char) (s : Str) (i : Nat) (h : c ∉ s) :
    findCharAux c s i = none := by
  induction s generalizing i with
  | nil => rfl
  | cons x xs ih =>
    have hx : x ≠ c := fun e => h (e ▸ List.mem_cons_self _ _)
    have hxs : c ∉ xs := fun m => h (List.mem_cons_of_mem _ m)
    simp only [findCharAux, hx, if_false, ih (i + 1) hxs]

theorem substr_some_of_le (s : Str) (pos n : Nat) (h : pos ≤ s.length) :
    substr s pos (some n) = .ok ((s.drop pos).take n) := by
  unfold substr
  rw [if_neg (by omega)]

theorem parseKeyValuePair_of_colon (key value : Str) (h : ':' ∉ key) :
    parseKeyValuePair (key ++ ':' :: value) = .ok (key, value) := by
  unfold parseKeyValuePair findChar
  rw [List.drop_zero, findCharAux_append ':' key value 0 h]
  simp only [Nat.zero_add]
  rw [substr_some_of_le _ _ _ (Nat.zero_le _), substr_npos_of_le _ _ (by simp)]
  simp only [List.drop_zero, List.take_left]
  have : List.drop (key.length + 1) (key ++ ':' :: value) = value := by
    rw [← List.drop_drop, List.drop_left]
    rfl
  rw [this]

theorem parseKeyValuePair_of_no_colon (pair : Str) (h : ':' ∉ pair) :
    parseKeyValuePair pair =
      .error (.invalid_argument ("Invalid key-value pair format: ".toList ++ pair)) := by
  unfold parseKeyValuePair findChar
  rw [List.drop_zero, findCharAux_of_not_mem ':' pair 0 h]

theorem parseKeyValuePair_cases (pair : Str) :
    (∃ msg, parseKeyValuePair pair = .error (.invalid_argument msg)) ∨
    (∃ kv, parseKeyValuePair pair = .ok kv) := by
  by_cases h : ':' ∈ pair
  · obtain ⟨key, value, e, hk⟩ := List.eq_append_cons_of_mem h
    right
    exact ⟨(key, value), by rw [e]; exact parseKeyValuePair_of_colon key value hk⟩
  · left
    exact ⟨_, parseKeyValuePair_of_no_colon pair h⟩

theorem parseLoop_done (input : Str) (fuel endPos : Nat) (result : StrMap)
    (h : lbrace ∉ input.drop endPos) :
    parseLoop input (fuel + 1) endPos result = some (.ok result) := by
  unfold parseLoop findChar
  rw [findCharAux_of_not_mem lbrace _ endPos h]

theorem parseLoop_mismatched (input : Str) (fuel endPos : Nat) (result : StrMap)
    (junk rest : Str) (h : input.drop endPos = junk ++ lbrace :: rest)
    (hj : lbrace ∉ junk) (hr : rbrace ∉ rest) :
    parseLoop input (fuel + 1) endPos result =
      some (.error (.invalid_argument "Mismatched braces in input string".toList)) := by
  have hd : input.drop (endPos + junk.length) = lbrace :: rest := by
    rw [← List.drop_drop, h, List.drop_left]
  have hne : lbrace ≠ rbrace := by decide
  unfold parseLoop
  simp only [findChar, h, findCharAux_append lbrace junk rest endPos hj, hd, findCharAux, hne,
    if_false, findCharAux_of_not_mem rbrace rest _ hr]

theorem parseLoop_segment (input : Str) (fuel endPos : Nat) (result : StrMap)
    (junk seg post : Str) (h : input.drop endPos = junk ++ lbrace :: (seg ++ rbrace :: post))
    (hj : lbrace ∉ junk) (hs : rbrace ∉ seg) :
    parseLoop input (fuel + 1) endPos result =
      (match parseKeyValuePair seg with
      | .error x => some (.error x)
      | .ok keyValue =>
        parseLoop input fuel (endPos + junk.length + 1 + seg.length)
          (result.assign keyValue.1 keyValue.2)) ∧
    input.drop (endPos + junk.length + 1 + seg.length) = rbrace :: post := by
  have hd : input.drop (endPos + junk.length) = lbrace :: (seg ++ rbrace :: post) := by
    rw [← List.drop_drop, h, List.drop_left]
  have hd1 : input.drop (endPos + junk.length + 1) = seg ++ rbrace :: post := by
    rw [← List.drop_drop, hd]
    rfl
  have hd2 : input.drop (endPos + junk.length + 1 + seg.length) = rbrace :: post := by
    rw [← List.drop_drop, hd1, List.drop_left]
  have hlen : endPos + junk.length + 1 ≤ input.length := by
    by_contra hc
    have : input.drop (endPos + junk.length) = [] := List.drop_of_length_le (by omega)
    rw [this] at hd
    cases hd
  have hne : lbrace ≠ rbrace := by decide
  refine ⟨?_, hd2⟩
  have hfind1 : findChar input lbrace endPos = some (endPos + junk.length) := by
    unfold findChar
    rw [h]
    exact findCharAux_append lbrace junk _ endPos hj
  have hfind2 : findChar input rbrace (endPos + junk.length) =
      some (endPos + junk.length + 1 + seg.length) := by
    unfold findChar
    rw [hd]
    simp only [findCharAux, hne, if_false]
    exact findCharAux_append rbrace seg post _ hs
  have hsub : substr input (endPos + junk.length + 1)
      (some (endPos + junk.length + 1 + seg.length - (endPos + junk.length) - 1)) =
      .ok seg := by
    rw [substr_some_of_le _ _ _ hlen, hd1]
    have : endPos + junk.length + 1 + seg.length - (endPos + junk.length) - 1 = seg.length := by
      omega
    rw [this, List.take_left]
  rw [parseLoop]
  simp only [hfind1, hfind2, hsub]

theorem strLt_irrefl (a : Str) : strLt a a = false := by
  induction a with
  | nil => rfl
  | cons x xs ih => simp [strLt, ih]

theorem eq_of_strLt_eq_false (a b : Str) (h1 : strLt a b = false) (h2 : strLt b a = false) :
    a = b := by
  induction a generalizing b with
  | nil =>
    cases b with
    | nil => rfl
    | cons y ys => simp [strLt] at h1
  | cons x xs ih =>
    cases b with
    | nil => simp [strLt] at h2
    | cons y ys =>
      unfold strLt at h1 h2
      by_cases hxy : x.toNat < y.toNat
      · simp [hxy] at h1
      · by_cases hyx : y.toNat < x.toNat
        · simp [hyx] at h2
        · simp only [hxy, hyx, if_false] at h1 h2
          have hn : x.toNat = y.toNat := by omega
          have hc : x = y := by
            rw [← Char.ofNat_toNat x, ← Char.ofNat_toNat y, hn]
          rw [hc, ih ys h1 h2]

theorem StrMap.find_assign (m : StrMap) (k v key : Str) :
    (StrMap.assign m k v).find key = if k = key then some v else m.find key := by
  induction m with
  | nil => simp [StrMap.assign, StrMap.find]
  | cons x rest ih =>
    obtain ⟨k', v'⟩ := x
    unfold StrMap.assign
    by_cases h1 : strLt k k' = true
    · simp only [h1, if_true]
      rw [StrMap.find]
    · by_cases h2 : strLt k' k = true
      · simp only [h1, h2, if_true, if_false, Bool.false_eq_true]
        have hne : k' ≠ k := by
          intro e
          rw [e, strLt_irrefl] at h2
          cases h2
        rw [StrMap.find, ih, StrMap.find]
        by_cases e1 : k = key
        · have e2 : ¬ k' = key := fun e => hne (e.trans e1.symm)
          simp only [e1, e2, if_true, if_false]
        · simp only [e1, if_false]
      · simp only [h1, h2, if_false, Bool.false_eq_true]
        have e : k = k' := eq_of_strLt_eq_false k k' (by simpa using h1) (by simpa using h2)
        subst e
        rw [StrMap.find, StrMap.find]
        by_cases e1 : k = key
        · simp only [e1, if_true]
        · simp only [e1, if_false]

theorem assignAll_append (m : StrMap) (a b : List (Str × Str)) :
    assignAll m (a ++ b) = assignAll (assignAll m a) b := by
  simp [assignAll, List.foldl_append]

theorem find_assignAll (m : StrMap) (kvs : List (Str × Str)) (key : Str) :
    (assignAll m kvs).find key =
      match kvs.reverse.lookup key with
      | some v => some v
      | none => m.find key := by
  induction kvs using List.reverseRecOn with
  | nil => rfl
  | append_singleton init kv ih =>
    rw [assignAll_append, List.reverse_append]
    show (StrMap.assign (assignAll m init) kv.1 kv.2).find key = _
    rw [StrMap.find_assign, ih]
    obtain ⟨k, v⟩ := kv
    by_cases e : k = key
    · subst e
      simp [List.lookup]
    · have : (key == k) = false := by simpa using fun h : key = k => e h.symm
      simp [List.lookup, e, this]

theorem length_le_length_segments (kvs : List (Str × Str)) :
    kvs.length ≤ (segments kvs).length := by
  induction kvs with
  | nil => simp
  | cons kv rest ih =>
    have : segments (kv :: rest) = segment kv.1 kv.2 ++ segments rest := by
      simp [segments]
    rw [this]
    simp only [List.length_cons, List.length_append, segment]
    omega

theorem parseLoop_segments (input : Str) (kvs : List (Str × Str))
    (hk : ∀ kv ∈ kvs, ':' ∉ kv.1 ∧ rbrace ∉ kv.1 ∧ rbrace ∉ kv.2) :
    ∀ (fuel endPos : Nat) (result : StrMap) (junk : Str),
      input.drop endPos = junk ++ segments kvs → lbrace ∉ junk → kvs.length < fuel →
      parseLoop input fuel endPos result = some (.ok (assignAll result kvs)) := by
  induction kvs with
  | nil =>
    intro fuel endPos result junk hd hj hf
    obtain ⟨fuel, rfl⟩ : ∃ f, fuel = f + 1 := ⟨fuel - 1, by simp at hf; omega⟩
    apply parseLoop_done
    rw [hd]
    simpa [segments] using hj
  | cons kv rest ih =>
    intro fuel endPos result junk hd hj hf
    obtain ⟨fuel, rfl⟩ : ∃ f, fuel = f + 1 := ⟨fuel - 1, by simp at hf; omega⟩
    obtain ⟨hc, hr1, hr2⟩ := hk kv (List.mem_cons_self _ _)
    have hd' : input.drop endPos =
        junk ++ lbrace :: ((kv.1 ++ ':' :: kv.2) ++ rbrace :: segments rest) := by
      rw [hd]
      simp [segments, segment, List.append_assoc]
    have hseg : rbrace ∉ kv.1 ++ ':' :: kv.2 := by
      intro hm
      rcases List.mem_append.mp hm with m | m
      · exact hr1 m
      · rcases List.mem_cons.mp m with e | m
        · exact absurd e (by decide)
        · exact hr2 m
    obtain ⟨step, hnext⟩ := parseLoop_segment input fuel endPos result junk
      (kv.1 ++ ':' :: kv.2) (segments rest) hd' hj hseg
    rw [step, parseKeyValuePair_of_colon kv.1 kv.2 hc]
    have := ih (fun kv' h' => hk kv' (List.mem_cons_of_mem _ h')) fuel
      (endPos + junk.length + 1 + (kv.1 ++ ':' :: kv.2).length)
      (result.assign kv.1 kv.2) [rbrace] (by rw [hnext]; rfl) (by decide)
      (by simp at hf; omega)
    simpa [assignAll] using this

theorem parseInputString_segments (kvs : List (Str × Str))
    (hk : ∀ kv ∈ kvs, ':' ∉ kv.1 ∧ rbrace ∉ kv.1 ∧ rbrace ∉ kv.2) :
    parseInputString (segments kvs) = some (.ok (assignAll [] kvs)) := by
  unfold parseInputString
  apply parseLoop_segments (segments kvs) kvs hk _ 0 [] []
  · rfl
  · simp
  · have := length_le_length_segments kvs
    omega

theorem parseLoop_ne_none (input : Str) :
    ∀ (fuel endPos : Nat) (result : StrMap), (input.drop endPos).length < fuel →
      parseLoop input fuel endPos result ≠ none := by
  intro fuel
  induction fuel with
  | zero => intro endPos result h; omega
  | succ fuel ih =>
    intro endPos result hlen
    by_cases h1 : lbrace ∈ input.drop endPos
    · obtain ⟨junk, rest, hd, hj⟩ := List.eq_append_cons_of_mem h1
      by_cases h2 : rbrace ∈ rest
      · obtain ⟨seg, post, hr, hs⟩ := List.eq_append_cons_of_mem h2
        rw [hr] at hd
        obtain ⟨step, hnext⟩ := parseLoop_segment input fuel endPos result junk seg post hd hj hs
        rw [step]
        rcases parseKeyValuePair_cases seg with ⟨msg, e⟩ | ⟨kv, e⟩
        · rw [e]
          simp
        · rw [e]
          apply ih
          rw [hnext]
          rw [hd] at hlen
          simp only [List.length_append, List.length_cons] at hlen ⊢
          omega
      · rw [parseLoop_mismatched input fuel endPos result junk rest hd hj h2]
        simp
    · rw [parseLoop_done input fuel endPos result h1]
      simp

theorem parseInputString_total (input : Str) : parseInputString input ≠ none :=
  parseLoop_ne_none input (input.length + 1) 0 [] (by simp)

theorem parseLoop_unclosed (input post : Str) (hp : rbrace ∉ post) :
    ∀ (fuel endPos : Nat) (result : StrMap), (lbrace :: post) <:+ input.drop endPos →
      (input.drop endPos).length < fuel →
      ∃ msg, parseLoop input fuel endPos result = some (.error (.invalid_argument msg)) := by
  intro fuel
  induction fuel with
  | zero => intro endPos result _ h; omega
  | succ fuel ih =>
    intro endPos result hsuf hlen
    have h1 : lbrace ∈ input.drop endPos := hsuf.subset (List.mem_cons_self _ _)
    obtain ⟨junk, rest, hd, hj⟩ := List.eq_append_cons_of_mem h1
    by_cases h2 : rbrace ∈ rest
    · obtain ⟨seg, post2, hr, hs⟩ := List.eq_append_cons_of_mem h2
      rw [hr] at hd
      obtain ⟨step, hnext⟩ := parseLoop_segment input fuel endPos result junk seg post2 hd hj hs
      rw [step]
      rcases parseKeyValuePair_cases seg with ⟨msg, e⟩ | ⟨kv, e⟩
      · rw [e]
        exact ⟨msg, rfl⟩
      · rw [e]
        apply ih
        · rw [hnext]
          have hsuf2 : (rbrace :: post2) <:+ input.drop endPos :=
            ⟨junk ++ lbrace :: seg, by rw [hd]; simp⟩
          rcases List.suffix_or_suffix_of_suffix hsuf hsuf2 with h | h
          · exact h
          · exfalso
            have hm : rbrace ∈ lbrace :: post := h.subset (List.mem_cons_self _ _)
            rcases List.mem_cons.mp hm with e | m
            · exact absurd e (by decide)
            · exact hp m
        · rw [hnext]
          rw [hd] at hlen
          simp only [List.length_append, List.length_cons] at hlen ⊢
          omega
    · exact ⟨_, parseLoop_mismatched input fuel endPos result junk rest hd hj h2⟩

theorem parseLoop_pairWithoutColon (input seg post : Str) (hc : ':' ∉ seg) (hs : rbrace ∉ seg) :
    ∀ (fuel endPos : Nat) (result : StrMap) (mid : Str),
      input.drop endPos = mid ++ lbrace :: (seg ++ rbrace :: post) → BracesClosed mid →
      (input.drop endPos).length < fuel →
      ∃ msg, parseLoop input fuel endPos result = some (.error (.invalid_argument msg)) := by
  intro fuel
  induction fuel with
  | zero => intro endPos result mid _ _ h; omega
  | succ fuel ih =>
    intro endPos result mid hd hclosed hlen
    by_cases h1 : lbrace ∈ mid
    · obtain ⟨a, b, hm, ha⟩ := List.eq_append_cons_of_mem h1
      have hb : rbrace ∈ b := hclosed a b hm
      obtain ⟨c, d, hb', hcn⟩ := List.eq_append_cons_of_mem hb
      have hd' : input.drop endPos =
          a ++ lbrace :: (c ++ rbrace :: (d ++ lbrace :: (seg ++ rbrace :: post))) := by
        rw [hd, hm, hb']
        simp
      obtain ⟨step, hnext⟩ := parseLoop_segment input fuel endPos result a c _ hd' ha hcn
      rw [step]
      rcases parseKeyValuePair_cases c with ⟨msg, e⟩ | ⟨kv, e⟩
      · rw [e]
        exact ⟨msg, rfl⟩
      · rw [e]
        apply ih _ _ (rbrace :: d)
        · rw [hnext]
          rfl
        · intro a' b' hab
          apply hclosed (a ++ lbrace :: c ++ a') b'
          rw [hm, hb']
          have : rbrace :: d = a' ++ lbrace :: b' := hab
          simp only [List.append_assoc, List.cons_append, this]
        · rw [hnext]
          rw [hd'] at hlen
          simp only [List.length_append, List.length_cons] at hlen ⊢
          omega
    · obtain ⟨step, _⟩ := parseLoop_segment input fuel endPos result mid seg post hd h1 hs
      rw [step, parseKeyValuePair_of_no_colon seg hc]
      exact ⟨_, rfl⟩

/-- C8. For a list of pairs in which no key contains `:` or the closing brace
and no value contains the closing brace, `parseInputString` applied to the
concatenation of the segments `{key:value}` returns a map, and the map binds
every key of the list to the value of its last occurrence and binds no other
key. -/
theorem parseInputString_wellFormed (kvs : List (Str × Str))
    (hk : ∀ kv ∈ kvs, ':' ∉ kv.1 ∧ rbrace ∉ kv.1 ∧ rbrace ∉ kv.2) :
    ∃ m, parseInputString (segments kvs) = some (.ok m) ∧
      ∀ key, m.find key = kvs.reverse.lookup key := by
  refine ⟨assignAll [] kvs, parseInputString_segments kvs hk, fun key => ?_⟩
  rw [find_assignAll]
  cases kvs.reverse.lookup key <;> rfl

/-- Witness of `parseInputString_wellFormed`: the input
`{Title:My Book}{Language:fra}`. -/
theorem parseInputString_wellFormed_witness :
    (∀ kv ∈ [("Title".toList, "My Book".toList), ("Language".toList, "fra".toList)],
      ':' ∉ kv.1 ∧ rbrace ∉ kv.1 ∧ rbrace ∉ kv.2) ∧
    ∃ m, parseInputString
        (segments [("Title".toList, "My Book".toList), ("Language".toList, "fra".toList)]) =
        some (.ok m) ∧
      ∀ key, m.find key =
        [("Title".toList, "My Book".toList), ("Language".toList, "fra".toList)].reverse.lookup
          key :=
  ⟨by decide,
    parseInputString_wellFormed
      [("Title".toList, "My Book".toList), ("Language".toList, "fra".toList)] (by decide)⟩

theorem parseInputString_title_language :
    segments [("Title".toList, "My Book".toList), ("Language".toList, "fra".toList)] =
      "\x7bTitle:My Book\x7d\x7bLanguage:fra\x7d".toList ∧
    parseInputString "\x7bTitle:My Book\x7d\x7bLanguage:fra\x7d".toList =
      some (.ok [("Language".toList, "fra".toList), ("Title".toList, "My Book".toList)]) ∧
    StrMap.find [("Language".toList, "fra".toList), ("Title".toList, "My Book".toList)]
      "Title".toList = some "My Book".toList ∧
    StrMap.find [("Language".toList, "fra".toList), ("Title".toList, "My Book".toList)]
      "Language".toList = some "fra".toList := by
  refine ⟨by decide, rfl, by decide, by decide⟩

/-- C9 as the program has it. `parseInputString` fails with
`std::invalid_argument` on every input that has an opening brace with no
closing brace after it, and on every input that has a brace-delimited pair
without a colon before which no opening brace is left unclosed. -/
theorem parseInputString_rejects_malformed (input : Str)
    (h : HasUnclosedBrace input ∨ HasPairWithoutColon input) :
    ∃ msg, parseInputString input = some (.error (.invalid_argument msg)) := by
  unfold parseInputString
  rcases h with ⟨pre, post, e, hp⟩ | ⟨pre, seg, post, e, hc, hs, hclosed⟩
  · exact parseLoop_unclosed input post hp (input.length + 1) 0 []
      ⟨pre, by rw [e]; rfl⟩ (by simp)
  · exact parseLoop_pairWithoutColon input seg post hc hs (input.length + 1) 0 [] pre
      (by rw [e]; rfl) hclosed (by simp)

theorem bracesClosed_nil : BracesClosed [] := by
  intro a b h
  cases a <;> cases h

/-- Witness of `parseInputString_rejects_malformed`: the input `{a:b}{c`, whose
second opening brace has no closing brace after it. -/
theorem parseInputString_rejects_malformed_witness :
    (HasUnclosedBrace "\x7ba:b\x7d\x7bc".toList ∨
      HasPairWithoutColon "\x7ba:b\x7d\x7bc".toList) ∧
    ∃ msg, parseInputString "\x7ba:b\x7d\x7bc".toList =
      some (.error (.invalid_argument msg)) :=
  have h : HasUnclosedBrace "\x7ba:b\x7d\x7bc".toList ∨
      HasPairWithoutColon "\x7ba:b\x7d\x7bc".toList :=
    Or.inl ⟨"\x7ba:b\x7d".toList, "c".toList, rfl, by decide⟩
  ⟨h, parseInputString_rejects_malformed "\x7ba:b\x7d\x7bc".toList h⟩

theorem parseInputString_pair_without_colon :
    HasPairWithoutColon "\x7bab\x7d".toList ∧
    parseInputString "\x7bab\x7d".toList =
      some (.error (.invalid_argument "Invalid key-value pair format: ab".toList)) :=
  ⟨⟨[], "ab".toList, [], rfl, by decide, by decide, bracesClosed_nil⟩, rfl⟩

/-- C9 fails as stated. The input `}` has a closing brace with no unclosed
opening brace before it, and so has the input `{a:b}}`; the input `{a:{b}` has
the brace-delimited pair `{b}` without a colon, after an opening brace that is
never closed. `parseInputString` returns a map for the three of them: the
empty map, the map of `a` to `b`, and the map of `a` to `{b`. -/
theorem parseInputString_accepts_stray_closing_brace :
    (HasStrayClosingBrace [rbrace] ∧ parseInputString [rbrace] = some (.ok [])) ∧
    (HasStrayClosingBrace "\x7ba:b\x7d\x7d".toList ∧
      parseInputString "\x7ba:b\x7d\x7d".toList = some (.ok [("a".toList, "b".toList)])) ∧
    ((∃ pre seg post, "\x7ba:\x7bb\x7d".toList = pre ++ lbrace :: (seg ++ rbrace :: post) ∧
        ':' ∉ seg ∧ rbrace ∉ seg) ∧
      parseInputString "\x7ba:\x7bb\x7d".toList =
        some (.ok [("a".toList, "\x7bb".toList)])) := by
  refine ⟨⟨⟨[], [], rfl, bracesClosed_nil⟩, rfl⟩,
    ⟨⟨"\x7ba:b\x7d".toList, [], rfl, ?_⟩, rfl⟩,
    ⟨⟨"\x7ba:".toList, "b".toList, [], rfl, by decide, by decide⟩, rfl⟩⟩
  intro a b h
  have hl := congrArg List.length h
  simp only [String.toList, List.length_append, List.length_cons] at hl
  match a, h with
  | [], h => simp at h; simp [← h.2, rbrace]
  | [_], h => simp [lbrace] at h
  | [_, _], h => simp [lbrace] at h
  | [_, _, _], h => simp [lbrace] at h
  | [_, _, _, _], h => simp [lbrace] at h
  | _ :: _ :: _ :: _ :: _ :: _, h => simp at hl; omega

end ZimRecreate
